import Mathlib

/-!
Verification of the simple Bloom filter implementation (src/bloomfilter.py).

The Python source is shallowly embedded: MD5 is implemented over byte lists
as natural numbers, Python ints are `Int`, Python floats are idealised as
real numbers, Python exceptions are an explicit error type, and the
public operations are state-passing functions.
-/

/-- Python exceptions that the embedded code can raise. -/
inductive PyErr where
  | valueError
  | zeroDivisionError
  | indexError
deriving DecidableEq, Repr

/-- An argument of type `Union[str, int]` as accepted by `add`, `contains`
and `_hash`. -/
inductive PyItem where
  | int (i : ℤ)
  | str (s : String)

/-! ### MD5 (as used by `hashlib.md5(...).hexdigest()` in `_hash`)

Bytes and 32-bit words are natural numbers, reduced mod 2^32 where the
algorithm wraps. -/

/-- Reduction of a natural number to a 32-bit word. -/
def u32 (x : ℕ) : ℕ := x % 4294967296

/-- Bitwise complement on 32-bit words. -/
def not32 (x : ℕ) : ℕ := 4294967295 - x

/-- Left-rotation of a 32-bit word by `c` places (`0 < c < 32`). -/
def rotl32 (x c : ℕ) : ℕ := (x % 2 ^ (32 - c)) * 2 ^ c + x / 2 ^ (32 - c)

/-- The 64 MD5 sine-derived constants `K[i] = floor(|sin(i+1)| * 2^32)`. -/
def md5K : List ℕ :=
  [3614090360, 3905402710, 606105819, 3250441966, 4118548399, 1200080426, 2821735955, 4249261313,
   1770035416, 2336552879, 4294925233, 2304563134, 1804603682, 4254626195, 2792965006, 1236535329,
   4129170786, 3225465664, 643717713, 3921069994, 3593408605, 38016083, 3634488961, 3889429448,
   568446438, 3275163606, 4107603335, 1163531501, 2850285829, 4243563512, 1735328473, 2368359562,
   4294588738, 2272392833, 1839030562, 4259657740, 2763975236, 1272893353, 4139469664, 3200236656,
   681279174, 3936430074, 3572445317, 76029189, 3654602809, 3873151461, 530742520, 3299628645,
   4096336452, 1126891415, 2878612391, 4237533241, 1700485571, 2399980690, 4293915773, 2240044497,
   1873313359, 4264355552, 2734768916, 1309151649, 4149444226, 3174756917, 718787259, 3951481745]

/-- The 64 MD5 per-round left-rotation amounts. -/
def md5S : List ℕ :=
  [7, 12, 17, 22, 7, 12, 17, 22, 7, 12, 17, 22, 7, 12, 17, 22,
   5, 9, 14, 20, 5, 9, 14, 20, 5, 9, 14, 20, 5, 9, 14, 20,
   4, 11, 16, 23, 4, 11, 16, 23, 4, 11, 16, 23, 4, 11, 16, 23,
   6, 10, 15, 21, 6, 10, 15, 21, 6, 10, 15, 21, 6, 10, 15, 21]

/-- Decode a 64-byte chunk into sixteen 32-bit words, little-endian. -/
def md5Words (chunk : List ℕ) : List ℕ :=
  (List.range 16).map fun j =>
    chunk.getD (4 * j) 0 + 256 * chunk.getD (4 * j + 1) 0 +
      65536 * chunk.getD (4 * j + 2) 0 + 16777216 * chunk.getD (4 * j + 3) 0

/-- One of the 64 MD5 rounds, acting on the state `(a, b, c, d)`. -/
def md5Round (M : List ℕ) (st : ℕ × ℕ × ℕ × ℕ) (i : ℕ) : ℕ × ℕ × ℕ × ℕ :=
  match st with
  | (a, b, c, d) =>
    let fg : ℕ × ℕ :=
      if i < 16 then (Nat.lor (Nat.land b c) (Nat.land (not32 b) d), i)
      else if i < 32 then (Nat.lor (Nat.land d b) (Nat.land (not32 d) c), (5 * i + 1) % 16)
      else if i < 48 then (Nat.xor b (Nat.xor c d), (3 * i + 5) % 16)
      else (Nat.xor c (Nat.lor b (not32 d)), (7 * i) % 16)
    let f := u32 (fg.1 + a + md5K.getD i 0 + M.getD fg.2 0)
    (d, u32 (b + rotl32 f (md5S.getD i 0)), b, c)

/-- Process one 64-byte chunk of the padded message. -/
def md5Chunk (st : ℕ × ℕ × ℕ × ℕ) (chunk : List ℕ) : ℕ × ℕ × ℕ × ℕ :=
  let M := md5Words chunk
  match (List.range 64).foldl (md5Round M) st with
  | (a, b, c, d) =>
    match st with
    | (a0, b0, c0, d0) => (u32 (a0 + a), u32 (b0 + b), u32 (c0 + c), u32 (d0 + d))

/-- Process all 64-byte chunks of the padded message in order. -/
def md5Chunks (st : ℕ × ℕ × ℕ × ℕ) (msg : List ℕ) : ℕ × ℕ × ℕ × ℕ :=
  if hne : msg = [] then st
  else md5Chunks (md5Chunk st (msg.take 64)) (msg.drop 64)
termination_by msg.length
decreasing_by
  have hpos : 0 < msg.length := List.length_pos.mpr hne
  simp only [List.length_drop]
  omega

/-- MD5 padding: a `0x80` byte, zeros to 56 mod 64, then the original
bit length as a 64-bit little-endian quantity. -/
def md5Pad (msg : List ℕ) : List ℕ :=
  let bits := msg.length * 8 % 2 ^ 64
  msg ++ [128] ++ List.replicate ((119 - msg.length % 64) % 64) 0 ++
    (List.range 8).map fun i => bits / 2 ^ (8 * i) % 256

/-- Serialise a 32-bit word as four bytes, little-endian. -/
def md5WordBytes (w : ℕ) : List ℕ := [w % 256, w / 256 % 256, w / 65536 % 256, w / 16777216 % 256]

/-- The 16-byte MD5 digest of a byte string. -/
def md5Digest (msg : List ℕ) : List ℕ :=
  match md5Chunks (1732584193, 4023233417, 2562383102, 271733878) (md5Pad msg) with
  | (a, b, c, d) => md5WordBytes a ++ md5WordBytes b ++ md5WordBytes c ++ md5WordBytes d

/-- `int(hashlib.md5(msg).hexdigest(), 16)`: the digest read as a
big-endian natural number. -/
def md5Int (msg : List ℕ) : ℕ := (md5Digest msg).foldl (fun acc b => acc * 256 + b) 0

/-- `s.encode('utf-8')` as a list of byte values. -/
def strBytes (s : String) : List ℕ := s.toUTF8.toList.map (fun b => b.toNat)

/-! ### The filter state and its construction -/

/-- The state of a `SimpleBloomFilter` object: configuration `n`, `p`,
derived parameters `m`, `k`, the bit array, and the element counter. -/
structure BloomFilter where
  n : ℤ
  p : ℝ
  m : ℤ
  k : ℤ
  bit_array : List Bool
  num_elements : ℤ

/-- Python `int(x)` on a float: truncation toward zero. -/
noncomputable def pyInt (x : ℝ) : ℤ := if 0 ≤ x then ⌊x⌋ else ⌈x⌉

/-- `_calculate_optimal_m`: `int(-self.n * math.log(self.p) / (math.log(2) ** 2))`. -/
noncomputable def calcM (n : ℤ) (p : ℝ) : ℤ :=
  pyInt (-(n : ℝ) * Real.log p / Real.log 2 ^ 2)

/-- `_calculate_optimal_k`: `int((self.m / self.n) * math.log(2))`. -/
noncomputable def calcK (n m : ℤ) : ℤ :=
  pyInt ((m : ℝ) / (n : ℝ) * Real.log 2)

/-- `SimpleBloomFilter.__init__`.  `math.log(p)` raises `ValueError` for
`p ≤ 0` (inside `_calculate_optimal_m`); `m / n` raises `ZeroDivisionError`
for `n = 0` (inside `_calculate_optimal_k`).  There is no validation of the
arguments.  `self.bit_array = [False] * self.m` (empty when `m ≤ 0`),
`self.num_elements = 0`. -/
noncomputable def initBF (capacity : ℤ) (p : ℝ) : Except PyErr BloomFilter :=
  if p ≤ 0 then .error .valueError
  else
    let m := calcM capacity p
    if capacity = 0 then .error .zeroDivisionError
    else
      .ok ⟨capacity, p, m, calcK capacity m, List.replicate m.toNat false, 0⟩

/-! ### Hashing and the bit array -/

/-- `str(item)`: both branches of the `isinstance` test in `_hash` call
`str`, so integers hash as their decimal text. -/
def pyStr (item : PyItem) : String :=
  match item with
  | .int i => toString i
  | .str s => s

/-- The pure value of `_hash` when `m ≠ 0`: the MD5 digest of
`f"{item_str}_{seed}".encode('utf-8')` as an integer, reduced `% m`
with Python's sign-of-divisor remainder. -/
def hashIdx (m : ℤ) (item : PyItem) (seed : ℕ) : ℤ :=
  Int.fmod (md5Int (strBytes (pyStr item ++ "_" ++ toString seed))) m

/-- `SimpleBloomFilter._hash`: raises `ZeroDivisionError` when `m = 0`. -/
def hashBF (f : BloomFilter) (item : PyItem) (seed : ℕ) : Except PyErr ℤ :=
  if f.m = 0 then .error .zeroDivisionError else .ok (hashIdx f.m item seed)

/-- Resolve a Python list index (negative indices count from the end);
out-of-range indices raise `IndexError`. -/
def pyResolve (len : ℕ) (i : ℤ) : Except PyErr ℕ :=
  let j := if i < 0 then i + len else i
  if 0 ≤ j ∧ j < len then .ok j.toNat else .error .indexError

/-- `self.bit_array[index]` (read). -/
def pyGetBit (l : List Bool) (i : ℤ) : Except PyErr Bool :=
  (pyResolve l.length i).map fun j => l.getD j false

/-- `self.bit_array[index] = True` (write). -/
def pySetBit (l : List Bool) (i : ℤ) : Except PyErr (List Bool) :=
  (pyResolve l.length i).map fun j => l.set j true

/-! ### add / contains -/

/-- The loop of `add`: set the bit at `_hash(item, i)` for each remaining
round `i`.  On an exception the bits set so far are kept. -/
def addLoop (f : BloomFilter) (item : PyItem) :
    List Bool → List ℕ → List Bool × Option PyErr
  | bits, [] => (bits, none)
  | bits, i :: rest =>
    match hashBF f item i with
    | .error e => (bits, some e)
    | .ok idx =>
      match pySetBit bits idx with
      | .error e => (bits, some e)
      | .ok bits' => addLoop f item bits' rest

/-- `SimpleBloomFilter.add`: run the loop over `range(self.k)`, then
increment `num_elements` (skipped if the loop raised). -/
def addBF (f : BloomFilter) (item : PyItem) : BloomFilter × Option PyErr :=
  match addLoop f item f.bit_array (List.range f.k.toNat) with
  | (bits, none) => ({ f with bit_array := bits, num_elements := f.num_elements + 1 }, none)
  | (bits, some e) => ({ f with bit_array := bits }, some e)

/-- The loop of `contains`: return `False` at the first unset bit. -/
def containsLoop (f : BloomFilter) (item : PyItem) : List ℕ → Except PyErr Bool
  | [] => .ok true
  | i :: rest => do
    let idx ← hashBF f item i
    let b ← pyGetBit f.bit_array idx
    if b then containsLoop f item rest else .ok false

/-- `SimpleBloomFilter.contains`. -/
def containsBF (f : BloomFilter) (item : PyItem) : Except PyErr Bool :=
  containsLoop f item (List.range f.k.toNat)

/-- `SimpleBloomFilter.__contains__` (the `in` operator): delegates to
`contains`. -/
def memBF (f : BloomFilter) (item : PyItem) : Except PyErr Bool :=
  containsBF f item

/-! ### Statistics -/

/-- `get_current_false_positive_probability`: `0.0` when no elements were
added, otherwise `(1 - e^(-k * num_elements / m)) ** k`; the division
raises `ZeroDivisionError` when `m = 0`. -/
noncomputable def getFpBF (f : BloomFilter) : Except PyErr ℝ :=
  if f.num_elements = 0 then .ok 0
  else if f.m = 0 then .error .zeroDivisionError
  else .ok ((1 - Real.exp (-(f.k : ℝ) * (f.num_elements : ℝ) / (f.m : ℝ))) ^ f.k)

/-- `get_fill_ratio`: `sum(self.bit_array) / self.m`; raises
`ZeroDivisionError` when `m = 0`. -/
noncomputable def getFillBF (f : BloomFilter) : Except PyErr ℝ :=
  if f.m = 0 then .error .zeroDivisionError
  else .ok ((f.bit_array.count true : ℝ) / (f.m : ℝ))

/-- The values computed by `print_stats` (the textual formatting is an
external presentation concern). -/
structure FilterStats where
  n : ℤ
  p : ℝ
  m : ℤ
  k : ℤ
  memory_bytes : ℝ
  elements : ℤ
  fill : ℝ
  expected_fp : ℝ
  current_fp : ℝ
  load_factor : Option ℝ

/-- `print_stats`: computes the current false-positive estimate, then the
fill ratio, then the printed fields; the load factor `num_elements / n`
is only computed when `num_elements > 0`. -/
noncomputable def statsBF (f : BloomFilter) : Except PyErr FilterStats := do
  let fp ← getFpBF f
  let fill ← getFillBF f
  let lf ←
    if 0 < f.num_elements then
      if f.n = 0 then .error PyErr.zeroDivisionError
      else .ok (some ((f.num_elements : ℝ) / (f.n : ℝ)))
    else .ok none
  .ok ⟨f.n, f.p, f.m, f.k, (f.m : ℝ) / 8, f.num_elements, fill, f.p, fp, lf⟩

/-! ### Operation sequences -/

/-- A call to one of the public operations of the filter. -/
inductive FilterOp where
  | add (item : PyItem)
  | contains (item : PyItem)
  | fill
  | fpEstimate
  | stats

/-- Execute one public operation: the resulting object state, and the
exception it raised, if any.  The query operations never assign to the
object, so they return the state unchanged even when they raise. -/
noncomputable def execBF (f : BloomFilter) : FilterOp → BloomFilter × Option PyErr
  | .add item => addBF f item
  | .contains item =>
    match containsBF f item with
    | .ok _ => (f, none)
    | .error e => (f, some e)
  | .fill =>
    match getFillBF f with
    | .ok _ => (f, none)
    | .error e => (f, some e)
  | .fpEstimate =>
    match getFpBF f with
    | .ok _ => (f, none)
    | .error e => (f, some e)
  | .stats =>
    match statsBF f with
    | .ok _ => (f, none)
    | .error e => (f, some e)

/-- Execute a sequence of operations, stopping at the first exception
(the object keeps the state it had when the exception was raised). -/
noncomputable def runBF (f : BloomFilter) : List FilterOp → BloomFilter × Option PyErr
  | [] => (f, none)
  | op :: ops =>
    match execBF f op with
    | (f', none) => runBF f' ops
    | (f', some e) => (f', some e)

/-! ### The spec's derived-parameter formulas

These two definitions follow the specification's words, not the source;
they exist to be compared with `calcM` and `calcK`. -/

/-- Modelled from the spec: `m = ceil(-capacity * ln(p) / ln(2)^2)`. -/
noncomputable def specCeilM (n : ℤ) (p : ℝ) : ℤ :=
  ⌈-(n : ℝ) * Real.log p / Real.log 2 ^ 2⌉

/-- Modelled from the spec: `k = floor((m / capacity) * ln(2))`, with a
floor of 1 if the raw formula yields zero. -/
noncomputable def specFloorK (n m : ℤ) : ℤ :=
  max 1 ⌊(m : ℝ) / (n : ℝ) * Real.log 2⌋

/-! ### Helper lemmas: truncation and logarithm bounds -/

lemma log2_pos : 0 < Real.log 2 := Real.log_pos (by norm_num)

lemma log2_sq_pos : 0 < Real.log 2 ^ 2 := pow_pos log2_pos 2

lemma pyInt_of_nonneg {x : ℝ} (h : 0 ≤ x) : pyInt x = ⌊x⌋ := if_pos h

lemma pyInt_eval {x : ℝ} {z : ℤ} (hz : 0 ≤ z) (h1 : (z : ℝ) ≤ x) (h2 : x < (z : ℝ) + 1) :
    pyInt x = z := by
  have hx : 0 ≤ x := le_trans (by exact_mod_cast hz) h1
  rw [pyInt_of_nonneg hx]
  exact Int.floor_eq_iff.mpr ⟨h1, h2⟩

lemma pyInt_nonneg {x : ℝ} (h : 0 ≤ x) : 0 ≤ pyInt x := by
  rw [pyInt_of_nonneg h]
  exact Int.floor_nonneg.mpr h

lemma calcM_eval {n : ℤ} {p : ℝ} {z : ℤ} (hz : 0 ≤ z)
    (h1 : (z : ℝ) ≤ -(n : ℝ) * Real.log p / Real.log 2 ^ 2)
    (h2 : -(n : ℝ) * Real.log p / Real.log 2 ^ 2 < (z : ℝ) + 1) : calcM n p = z :=
  pyInt_eval hz h1 h2

lemma calcK_eval {n m : ℤ} {z : ℤ} (hz : 0 ≤ z)
    (h1 : (z : ℝ) ≤ (m : ℝ) / (n : ℝ) * Real.log 2)
    (h2 : (m : ℝ) / (n : ℝ) * Real.log 2 < (z : ℝ) + 1) : calcK n m = z :=
  pyInt_eval hz h1 h2

lemma calcK_zero (n : ℤ) : calcK n 0 = 0 := by
  have : ((0 : ℤ) : ℝ) / (n : ℝ) * Real.log 2 = 0 := by
    push_cast
    ring
  rw [calcK, this]
  exact pyInt_eval le_rfl (by norm_num) (by norm_num)

lemma log_half : Real.log ((1 : ℝ) / 2) = -Real.log 2 := by
  rw [one_div, Real.log_inv]

/-- Taylor-series bounds for `log (5/4)`, from the Mathlib estimate on the
logarithm series at `x = -1/4` with 8 terms. -/
lemma log_five_quarters_bounds :
    (0.2231381 : ℝ) ≤ Real.log (5 / 4) ∧ Real.log (5 / 4) ≤ 0.2231483 := by
  have h := @Real.abs_log_sub_add_sum_range_le ((-1) / 4) (by rw [abs_div]; norm_num) 8
  have hx : (1 : ℝ) - (-1) / 4 = 5 / 4 := by norm_num
  rw [hx] at h
  have hsum : (∑ i ∈ Finset.range 8, ((-1 : ℝ) / 4) ^ (i + 1) / ((i : ℝ) + 1)) =
      -12284087 / 55050240 := by
    simp only [Finset.sum_range_succ, Finset.sum_range_zero]
    norm_num
  rw [hsum] at h
  have hrhs : |(-1 : ℝ) / 4| ^ (8 + 1) / (1 - |(-1 : ℝ) / 4|) = 1 / 196608 := by
    rw [abs_div]
    norm_num
  rw [hrhs] at h
  obtain ⟨hlo, hhi⟩ := abs_le.mp h
  constructor <;> linarith

/-- Taylor-series bounds for `log (99/100)`, from the Mathlib estimate at
`x = 1/100` with 2 terms. -/
lemma log_99_100_bounds :
    (-0.0100511 : ℝ) ≤ Real.log (99 / 100) ∧ Real.log (99 / 100) ≤ -0.0100489 := by
  have h := @Real.abs_log_sub_add_sum_range_le (1 / 100) (by rw [abs_div]; norm_num) 2
  have hx : (1 : ℝ) - 1 / 100 = 99 / 100 := by norm_num
  rw [hx] at h
  have hsum : (∑ i ∈ Finset.range 2, ((1 : ℝ) / 100) ^ (i + 1) / ((i : ℝ) + 1)) =
      201 / 20000 := by
    simp only [Finset.sum_range_succ, Finset.sum_range_zero]
    norm_num
  rw [hsum] at h
  have hrhs : |(1 : ℝ) / 100| ^ (2 + 1) / (1 - |(1 : ℝ) / 100|) = 1 / 990000 := by
    rw [abs_div]
    norm_num
  rw [hrhs] at h
  obtain ⟨hlo, hhi⟩ := abs_le.mp h
  constructor <;> linarith

/-- `log 100` written through `log 2` and `log (5/4)`. -/
lemma log_hundred_eq : Real.log 100 = 6 * Real.log 2 + 2 * Real.log (5 / 4) := by
  have h100 : (100 : ℝ) = 2 ^ 6 * (5 / 4) ^ 2 := by norm_num
  rw [h100, Real.log_mul (by norm_num) (by norm_num), Real.log_pow, Real.log_pow]
  push_cast
  ring

lemma log2_sq_bounds : (0.4804 : ℝ) < Real.log 2 ^ 2 ∧ Real.log 2 ^ 2 < 0.4805 := by
  have h1 := Real.log_two_gt_d9
  have h2 := Real.log_two_lt_d9
  constructor <;> nlinarith

/-! ### Concrete derived-parameter computations -/

lemma calcM_100_half : calcM 100 (1 / 2) = 144 := by
  have hL := log2_pos
  have hform : -(100 : ℝ) * Real.log ((1 : ℝ) / 2) / Real.log 2 ^ 2
      = 100 / Real.log 2 := by
    rw [log_half]
    field_simp
    ring
  apply calcM_eval (by norm_num) <;> push_cast <;> rw [hform]
  · rw [le_div_iff₀ hL]
    nlinarith [Real.log_two_lt_d9]
  · rw [div_lt_iff₀ hL]
    nlinarith [Real.log_two_gt_d9]

lemma calcK_100_144 : calcK 100 144 = 0 := by
  apply calcK_eval le_rfl <;> push_cast
  · nlinarith [log2_pos]
  · nlinarith [Real.log_two_lt_d9]

lemma calcM_1_half : calcM 1 (1 / 2) = 1 := by
  have hL := log2_pos
  have hform : -(1 : ℝ) * Real.log ((1 : ℝ) / 2) / Real.log 2 ^ 2
      = 1 / Real.log 2 := by
    rw [log_half]
    field_simp
    ring
  apply calcM_eval (by norm_num) <;> push_cast <;> rw [hform]
  · rw [le_div_iff₀ hL]
    nlinarith [Real.log_two_lt_d9]
  · rw [div_lt_iff₀ hL]
    nlinarith [Real.log_two_gt_d9]

lemma calcK_1_1 : calcK 1 1 = 0 := by
  apply calcK_eval le_rfl <;> push_cast
  · nlinarith [log2_pos]
  · nlinarith [Real.log_two_lt_d9]

lemma calcM_100_hundredth : calcM 100 (1 / 100) = 958 := by
  have hinv : Real.log ((1 : ℝ) / 100) = -Real.log 100 := by
    rw [one_div, Real.log_inv]
  have hsq := log2_sq_bounds
  have h54 := log_five_quarters_bounds
  have hform : -(100 : ℝ) * Real.log ((1 : ℝ) / 100) / Real.log 2 ^ 2
      = (600 * Real.log 2 + 200 * Real.log (5 / 4)) / Real.log 2 ^ 2 := by
    rw [hinv, log_hundred_eq]
    ring
  apply calcM_eval (by norm_num) <;> push_cast <;> rw [hform]
  · rw [le_div_iff₀ log2_sq_pos]
    nlinarith [hsq.2, h54.1, Real.log_two_gt_d9]
  · rw [div_lt_iff₀ log2_sq_pos]
    nlinarith [hsq.1, h54.2, Real.log_two_lt_d9]

lemma calcK_100_958 : calcK 100 958 = 6 := by
  apply calcK_eval (by norm_num) <;> push_cast
  · nlinarith [Real.log_two_gt_d9]
  · nlinarith [Real.log_two_lt_d9]

lemma calcM_1_99_100 : calcM 1 (99 / 100) = 0 := by
  have h99 := log_99_100_bounds
  have hsq := log2_sq_bounds
  apply calcM_eval le_rfl <;> push_cast
  · rw [le_div_iff₀ log2_sq_pos]
    nlinarith [h99.2]
  · rw [div_lt_iff₀ log2_sq_pos]
    nlinarith [h99.1, hsq.1]

lemma calcM_1_1 : calcM 1 1 = 0 := by
  have hform : -(((1 : ℤ) : ℝ)) * Real.log 1 / Real.log 2 ^ 2 = 0 := by
    rw [Real.log_one]
    ring
  rw [calcM, hform]
  exact pyInt_eval le_rfl (by norm_num) (by norm_num)

lemma specCeilM_1_half : specCeilM 1 (1 / 2) = 2 := by
  have hL := log2_pos
  have hform : -(1 : ℝ) * Real.log ((1 : ℝ) / 2) / Real.log 2 ^ 2
      = 1 / Real.log 2 := by
    rw [log_half]
    field_simp
    ring
  have hcast : -(((1 : ℤ) : ℝ)) * Real.log ((1 : ℝ) / 2) / Real.log 2 ^ 2
      = -(1 : ℝ) * Real.log ((1 : ℝ) / 2) / Real.log 2 ^ 2 := by
    norm_num
  rw [specCeilM, hcast, hform]
  apply Int.ceil_eq_iff.mpr
  constructor
  · push_cast
    rw [lt_div_iff₀ hL]
    nlinarith [Real.log_two_lt_d9]
  · push_cast
    rw [div_le_iff₀ hL]
    nlinarith [Real.log_two_gt_d9]

lemma specFloorK_1_1 : specFloorK 1 1 = 1 := by
  have hfl : ⌊(((1 : ℤ) : ℝ)) / (((1 : ℤ) : ℝ)) * Real.log 2⌋ = 0 := by
    apply Int.floor_eq_iff.mpr
    constructor
    · push_cast
      nlinarith [log2_pos]
    · push_cast
      nlinarith [Real.log_two_lt_d9]
  rw [specFloorK, hfl]
  rfl

/-! ### Construction lemmas -/

lemma initBF_ok {n : ℤ} {p : ℝ} (hp : 0 < p) (hn : n ≠ 0) :
    initBF n p = .ok ⟨n, p, calcM n p, calcK n (calcM n p),
      List.replicate (calcM n p).toNat false, 0⟩ := by
  rw [initBF, if_neg (not_le.mpr hp)]
  exact if_neg hn

lemma initBF_nonpos_p {n : ℤ} {p : ℝ} (hp : p ≤ 0) : initBF n p = .error .valueError := by
  rw [initBF]
  exact if_pos hp

lemma initBF_zero_cap {p : ℝ} (hp : 0 < p) : initBF 0 p = .error .zeroDivisionError := by
  rw [initBF, if_neg (not_le.mpr hp)]
  exact if_pos rfl

lemma calcM_nonneg {n : ℤ} {p : ℝ} (hn : 1 ≤ n) (h0 : 0 < p) (h1 : p < 1) :
    0 ≤ calcM n p := by
  have hlog : Real.log p < 0 := Real.log_neg h0 h1
  have hn' : (1 : ℝ) ≤ (n : ℝ) := by exact_mod_cast hn
  apply pyInt_nonneg
  apply div_nonneg _ log2_sq_pos.le
  nlinarith

lemma calcK_nonneg {n m : ℤ} (hn : 1 ≤ n) (hm : 0 ≤ m) : 0 ≤ calcK n m := by
  have hn' : (1 : ℝ) ≤ (n : ℝ) := by exact_mod_cast hn
  have hm' : (0 : ℝ) ≤ (m : ℝ) := by exact_mod_cast hm
  apply pyInt_nonneg
  apply mul_nonneg _ log2_pos.le
  positivity

/-- The state produced by a successful construction from a valid
configuration: the fields, and the basic well-formedness facts used by
every operation. -/
lemma initBF_valid {n : ℤ} {p : ℝ} (hn : 1 ≤ n) (h0 : 0 < p) (h1 : p < 1) :
    ∃ f : BloomFilter, initBF n p = .ok f ∧
      f.n = n ∧ f.p = p ∧ f.m = calcM n p ∧ f.k = calcK n (calcM n p) ∧
      f.bit_array = List.replicate f.m.toNat false ∧ f.num_elements = 0 ∧
      0 ≤ f.m ∧ 0 ≤ f.k ∧ (f.m = 0 → f.k = 0) ∧
      ((f.bit_array.length : ℤ) = f.m) ∧ f.n ≠ 0 := by
  have hn0 : n ≠ 0 := by omega
  have hM := calcM_nonneg hn h0 h1
  refine ⟨_, initBF_ok h0 hn0, rfl, rfl, rfl, rfl, rfl, rfl, hM,
    calcK_nonneg hn hM, ?_, ?_, hn0⟩
  · intro hm0
    have hm' : calcM n p = 0 := hm0
    show calcK n (calcM n p) = 0
    rw [hm']
    exact calcK_zero n
  · simp only [List.length_replicate]
    exact Int.toNat_of_nonneg hM

/-! ### Hashing and bit-array lemmas -/

lemma hashIdx_bounds {m : ℤ} (hm : 0 < m) (item : PyItem) (seed : ℕ) :
    0 ≤ hashIdx m item seed ∧ hashIdx m item seed < m := by
  rw [hashIdx, Int.fmod_eq_emod _ hm.le]
  exact ⟨Int.emod_nonneg _ hm.ne', Int.emod_lt_of_pos _ hm⟩

lemma hashBF_ok {f : BloomFilter} (hm : f.m ≠ 0) (item : PyItem) (seed : ℕ) :
    hashBF f item seed = .ok (hashIdx f.m item seed) := by
  rw [hashBF]
  exact if_neg hm

lemma pyResolve_ok {len : ℕ} {i : ℤ} (h0 : 0 ≤ i) (h1 : i < len) :
    pyResolve len i = .ok i.toNat := by
  rw [pyResolve]
  simp only [not_lt.mpr h0, if_false]
  exact if_pos ⟨h0, h1⟩

lemma pySetBit_ok {l : List Bool} {i : ℤ} (h0 : 0 ≤ i) (h1 : i < l.length) :
    pySetBit l i = .ok (l.set i.toNat true) := by
  rw [pySetBit, pyResolve_ok h0 h1]
  rfl

lemma pyGetBit_ok {l : List Bool} {i : ℤ} (h0 : 0 ≤ i) (h1 : i < l.length) :
    pyGetBit l i = .ok (l.getD i.toNat false) := by
  rw [pyGetBit, pyResolve_ok h0 h1]
  rfl

lemma getD_set_mono {l : List Bool} {n j : ℕ} (h : l.getD j false = true) :
    (l.set n true).getD j false = true := by
  rcases eq_or_ne n j with rfl | hne
  · rcases Nat.lt_or_ge n l.length with hlt | hge
    · simp [List.getD_eq_getElem?_getD, List.getElem?_set_self hlt]
    · rwa [List.set_eq_of_length_le hge]
  · rwa [List.getD_eq_getElem?_getD, List.getElem?_set_ne hne, ← List.getD_eq_getElem?_getD]

lemma getD_set_self {l : List Bool} {n : ℕ} (h : n < l.length) :
    (l.set n true).getD n false = true := by
  simp [List.getD_eq_getElem?_getD, List.getElem?_set_self h]

/-- A successful `pySetBit` is a `List.set` of `true` at some position. -/
lemma pySetBit_shape {l : List Bool} {i : ℤ} {l' : List Bool}
    (h : pySetBit l i = .ok l') : ∃ j, l' = l.set j true := by
  rw [pySetBit] at h
  cases hr : pyResolve l.length i with
  | error e => rw [hr] at h; exact absurd h (by simp [Except.map])
  | ok j =>
    rw [hr] at h
    simp only [Except.map, Except.ok.injEq] at h
    exact ⟨j, h.symm⟩

/-! ### Lemmas about the `add` loop -/

/-- Whatever happens (including exceptions), the `add` loop preserves the
length of the bit array and never clears a set bit. -/
lemma addLoop_len_mono (f : BloomFilter) (item : PyItem) :
    ∀ (seeds : List ℕ) (bits : List Bool),
      (addLoop f item bits seeds).1.length = bits.length ∧
      (∀ j, bits.getD j false = true → (addLoop f item bits seeds).1.getD j false = true) := by
  intro seeds
  induction seeds with
  | nil => exact fun bits => ⟨rfl, fun j h => h⟩
  | cons i rest ih =>
    intro bits
    cases hh : hashBF f item i with
    | error e => simp [addLoop, hh]
    | ok idx =>
      cases hs : pySetBit bits idx with
      | error e => simp [addLoop, hh, hs]
      | ok bits' =>
        obtain ⟨j, rfl⟩ := pySetBit_shape hs
        have hrest := ih (bits.set j true)
        constructor
        · simp only [addLoop, hh, hs]
          rw [hrest.1, List.length_set]
        · intro jj hjj
          simp only [addLoop, hh, hs]
          exact hrest.2 jj (getD_set_mono hjj)

/-- With a positive `m` and a bit array of length `m`, the `add` loop never
raises, and afterwards the bit for every processed seed is set. -/
lemma addLoop_spec (f : BloomFilter) (item : PyItem) (hm : 0 < f.m) :
    ∀ (seeds : List ℕ) (bits : List Bool), (bits.length : ℤ) = f.m →
      (addLoop f item bits seeds).2 = none ∧
      (∀ i ∈ seeds,
        (addLoop f item bits seeds).1.getD (hashIdx f.m item i).toNat false = true) := by
  intro seeds
  induction seeds with
  | nil => exact fun bits _ => ⟨rfl, by simp⟩
  | cons i rest ih =>
    intro bits hlen
    have hh := hashBF_ok hm.ne' item i
    obtain ⟨hge, hlt⟩ := hashIdx_bounds hm item i
    have hlt' : hashIdx f.m item i < (bits.length : ℤ) := by rw [hlen]; exact hlt
    have hs := pySetBit_ok hge hlt'
    have hlen' : ((bits.set (hashIdx f.m item i).toNat true).length : ℤ) = f.m := by
      rw [List.length_set]; exact hlen
    have hrest := ih (bits.set (hashIdx f.m item i).toNat true) hlen'
    have hmono := addLoop_len_mono f item rest (bits.set (hashIdx f.m item i).toNat true)
    constructor
    · simp only [addLoop, hh, hs]
      exact hrest.1
    · intro i' hi'
      simp only [addLoop, hh, hs]
      rcases List.mem_cons.mp hi' with rfl | hmem
      · apply hmono.2
        apply getD_set_self
        have : (hashIdx f.m item i').toNat < bits.length := by
          rw [Int.toNat_lt hge]
          exact hlt'
        exact this
      · exact hrest.2 i' hmem

/-- Unfolding `addBF` when the loop does not raise. -/
lemma addBF_of_none {f : BloomFilter} {item : PyItem}
    (h : (addLoop f item f.bit_array (List.range f.k.toNat)).2 = none) :
    addBF f item = ({ f with
      bit_array := (addLoop f item f.bit_array (List.range f.k.toNat)).1,
      num_elements := f.num_elements + 1 }, none) := by
  rw [addBF]
  have hpair : addLoop f item f.bit_array (List.range f.k.toNat) =
      ((addLoop f item f.bit_array (List.range f.k.toNat)).1, none) := by
    rw [← h]
  rw [hpair]

/-- The fields of the state after `add`, error or not: only `bit_array` and
`num_elements` are assigned, and the new bit array is the loop's. -/
lemma addBF_fields (f : BloomFilter) (item : PyItem) :
    (addBF f item).1.n = f.n ∧ (addBF f item).1.p = f.p ∧
    (addBF f item).1.m = f.m ∧ (addBF f item).1.k = f.k ∧
    (addBF f item).1.bit_array = (addLoop f item f.bit_array (List.range f.k.toNat)).1 := by
  rw [addBF]
  cases hl : addLoop f item f.bit_array (List.range f.k.toNat) with
  | mk bits err =>
    cases err with
    | none => exact ⟨rfl, rfl, rfl, rfl, rfl⟩
    | some e => exact ⟨rfl, rfl, rfl, rfl, rfl⟩

/-- On a well-formed state, `add` never raises and increments the element
counter by exactly one. -/
lemma addBF_ok (f : BloomFilter) (item : PyItem)
    (hwf : f.m = 0 → f.k ≤ 0) (hlen : (f.bit_array.length : ℤ) = f.m) :
    (addBF f item).2 = none ∧
    (addBF f item).1.num_elements = f.num_elements + 1 := by
  rcases lt_or_le 0 f.m with hm | hm
  · have h := (addLoop_spec f item hm (List.range f.k.toNat) f.bit_array hlen).1
    rw [addBF_of_none h]
    exact ⟨rfl, rfl⟩
  · have hm0 : f.m = 0 := by
      have hge : (0 : ℤ) ≤ (f.bit_array.length : ℤ) := by positivity
      omega
    have hk := hwf hm0
    have hkn : f.k.toNat = 0 := Int.toNat_eq_zero.mpr hk
    have hloop : addLoop f item f.bit_array (List.range f.k.toNat) = (f.bit_array, none) := by
      rw [hkn]
      rfl
    rw [addBF_of_none (by rw [hloop])]
    exact ⟨rfl, rfl⟩

/-! ### Lemmas about `contains` -/

/-- If every probed bit is set, the `contains` loop answers `True`. -/
lemma containsLoop_true (f : BloomFilter) (item : PyItem) (hm : 0 < f.m)
    (hlen : (f.bit_array.length : ℤ) = f.m) :
    ∀ seeds : List ℕ,
      (∀ i ∈ seeds, f.bit_array.getD (hashIdx f.m item i).toNat false = true) →
      containsLoop f item seeds = .ok true := by
  intro seeds
  induction seeds with
  | nil => intro _; rfl
  | cons i rest ih =>
    intro hall
    have hh := hashBF_ok hm.ne' item i
    obtain ⟨hge, hlt⟩ := hashIdx_bounds hm item i
    have hlt' : hashIdx f.m item i < (f.bit_array.length : ℤ) := by rw [hlen]; exact hlt
    have hg := pyGetBit_ok hge hlt'
    have hbit := hall i (List.mem_cons_self i rest)
    simp only [containsLoop, hh, hg, hbit, bind, Except.bind]
    exact ih fun i' hi' => hall i' (List.mem_cons_of_mem i hi')

/-- On a well-formed state with positive `m`, the `contains` loop never
raises. -/
lemma containsLoop_no_error (f : BloomFilter) (item : PyItem) (hm : 0 < f.m)
    (hlen : (f.bit_array.length : ℤ) = f.m) :
    ∀ seeds : List ℕ, ∃ b, containsLoop f item seeds = .ok b := by
  intro seeds
  induction seeds with
  | nil => exact ⟨true, rfl⟩
  | cons i rest ih =>
    have hh := hashBF_ok hm.ne' item i
    obtain ⟨hge, hlt⟩ := hashIdx_bounds hm item i
    have hlt' : hashIdx f.m item i < (f.bit_array.length : ℤ) := by rw [hlen]; exact hlt
    have hg := pyGetBit_ok hge hlt'
    cases hbit : f.bit_array.getD (hashIdx f.m item i).toNat false with
    | true =>
      obtain ⟨b, hb⟩ := ih
      refine ⟨b, ?_⟩
      simp only [containsLoop, hh, hg, hbit, bind, Except.bind]
      exact hb
    | false =>
      refine ⟨false, ?_⟩
      simp only [containsLoop, hh, hg, hbit, bind, Except.bind]
      rfl

/-- When the round count is not positive, the `contains` loop body never
runs and the call returns `True`. -/
lemma containsBF_of_k_nonpos (f : BloomFilter) (item : PyItem) (hk : f.k ≤ 0) :
    containsBF f item = .ok true := by
  rw [containsBF, Int.toNat_eq_zero.mpr hk]
  rfl

/-! ### Lemmas about the statistics operations -/

lemma getFpBF_empty {f : BloomFilter} (h : f.num_elements = 0) : getFpBF f = .ok 0 := by
  rw [getFpBF]
  exact if_pos h

lemma getFillBF_ok {f : BloomFilter} (hm : f.m ≠ 0) :
    getFillBF f = .ok ((f.bit_array.count true : ℝ) / (f.m : ℝ)) := by
  rw [getFillBF]
  exact if_neg hm

lemma getFillBF_zero_m {f : BloomFilter} (hm : f.m = 0) :
    getFillBF f = .error .zeroDivisionError := by
  rw [getFillBF]
  exact if_pos hm

lemma getFpBF_ok_exists (f : BloomFilter) (hm : f.m ≠ 0) : ∃ v, getFpBF f = .ok v := by
  rcases eq_or_ne f.num_elements 0 with h | h
  · exact ⟨0, getFpBF_empty h⟩
  · exact ⟨(1 - Real.exp (-(f.k : ℝ) * (f.num_elements : ℝ) / (f.m : ℝ))) ^ f.k,
      by rw [getFpBF, if_neg h, if_neg hm]⟩

lemma statsBF_ok_exists (f : BloomFilter) (hm : f.m ≠ 0) (hn : f.n ≠ 0) :
    ∃ s, statsBF f = .ok s := by
  obtain ⟨v, hv⟩ := getFpBF_ok_exists f hm
  rw [statsBF, hv, getFillBF_ok hm]
  simp only [bind, Except.bind]
  rcases lt_or_le 0 f.num_elements with h | h
  · rw [if_pos h, if_neg hn]
    exact ⟨_, rfl⟩
  · rw [if_neg (not_lt.mpr h)]
    exact ⟨_, rfl⟩

/-! ### Lemmas about `execBF` and `runBF` -/

lemma execBF_query_eq (f : BloomFilter) (op : FilterOp)
    (h : ∀ item, op ≠ .add item) : (execBF f op).1 = f := by
  cases op with
  | add item => exact absurd rfl (h item)
  | contains item => cases hc : containsBF f item <;> simp [execBF, hc]
  | fill => cases hc : getFillBF f <;> simp [execBF, hc]
  | fpEstimate => cases hc : getFpBF f <;> simp [execBF, hc]
  | stats => cases hc : statsBF f <;> simp [execBF, hc]

/-- Every operation leaves the configuration and the derived parameters
unchanged, keeps the bit-array length, and never clears a set bit. -/
lemma execBF_frame (f : BloomFilter) (op : FilterOp) :
    (execBF f op).1.n = f.n ∧ (execBF f op).1.p = f.p ∧ (execBF f op).1.m = f.m ∧
    (execBF f op).1.k = f.k ∧
    (execBF f op).1.bit_array.length = f.bit_array.length ∧
    (∀ j, f.bit_array.getD j false = true →
      (execBF f op).1.bit_array.getD j false = true) := by
  cases op with
  | add item =>
    obtain ⟨h1, h2, h3, h4, h5⟩ := addBF_fields f item
    have hml := addLoop_len_mono f item (List.range f.k.toNat) f.bit_array
    show (addBF f item).1.n = f.n ∧ (addBF f item).1.p = f.p ∧ (addBF f item).1.m = f.m ∧
      (addBF f item).1.k = f.k ∧ (addBF f item).1.bit_array.length = f.bit_array.length ∧
      (∀ j, f.bit_array.getD j false = true →
        (addBF f item).1.bit_array.getD j false = true)
    refine ⟨h1, h2, h3, h4, ?_, ?_⟩
    · rw [h5]
      exact hml.1
    · intro j hj
      rw [h5]
      exact hml.2 j hj
  | contains item =>
    rw [execBF_query_eq f _ (fun item h => by cases h)]
    exact ⟨rfl, rfl, rfl, rfl, rfl, fun j h => h⟩
  | fill =>
    rw [execBF_query_eq f _ (fun item h => by cases h)]
    exact ⟨rfl, rfl, rfl, rfl, rfl, fun j h => h⟩
  | fpEstimate =>
    rw [execBF_query_eq f _ (fun item h => by cases h)]
    exact ⟨rfl, rfl, rfl, rfl, rfl, fun j h => h⟩
  | stats =>
    rw [execBF_query_eq f _ (fun item h => by cases h)]
    exact ⟨rfl, rfl, rfl, rfl, rfl, fun j h => h⟩

/-- `runBF` also preserves configuration, parameters, bit-array length,
and set bits, whether or not an exception stops the sequence. -/
lemma runBF_frame : ∀ (ops : List FilterOp) (f : BloomFilter),
    (runBF f ops).1.n = f.n ∧ (runBF f ops).1.p = f.p ∧ (runBF f ops).1.m = f.m ∧
    (runBF f ops).1.k = f.k ∧
    (runBF f ops).1.bit_array.length = f.bit_array.length ∧
    (∀ j, f.bit_array.getD j false = true →
      (runBF f ops).1.bit_array.getD j false = true) := by
  intro ops
  induction ops with
  | nil => exact fun f => ⟨rfl, rfl, rfl, rfl, rfl, fun j h => h⟩
  | cons op ops ih =>
    intro f
    have hexec := execBF_frame f op
    cases h : execBF f op with
    | mk f' err =>
      rw [h] at hexec
      cases err with
      | none =>
        have hrest := ih f'
        simp only [runBF, h]
        refine ⟨?_, ?_, ?_, ?_, ?_, ?_⟩
        · rw [hrest.1, hexec.1]
        · rw [hrest.2.1, hexec.2.1]
        · rw [hrest.2.2.1, hexec.2.2.1]
        · rw [hrest.2.2.2.1, hexec.2.2.2.1]
        · rw [hrest.2.2.2.2.1, hexec.2.2.2.2.1]
        · exact fun j hj => hrest.2.2.2.2.2 j (hexec.2.2.2.2.2 j hj)
      | some e =>
        simp only [runBF, h]
        exact hexec

/-- On a well-formed state with positive `m`, no operation raises. -/
lemma execBF_no_error (f : BloomFilter) (op : FilterOp) (hm : 0 < f.m)
    (hlen : (f.bit_array.length : ℤ) = f.m) (hn : f.n ≠ 0) :
    (execBF f op).2 = none := by
  cases op with
  | add item =>
    exact (addBF_ok f item (fun h0 => absurd h0 hm.ne') hlen).1
  | contains item =>
    obtain ⟨b, hb⟩ := containsLoop_no_error f item hm hlen (List.range f.k.toNat)
    have : containsBF f item = .ok b := hb
    simp [execBF, this]
  | fill => simp [execBF, getFillBF_ok hm.ne']
  | fpEstimate =>
    obtain ⟨v, hv⟩ := getFpBF_ok_exists f hm.ne'
    simp [execBF, hv]
  | stats =>
    obtain ⟨s, hs⟩ := statsBF_ok_exists f hm.ne' hn
    simp [execBF, hs]

/-- On a well-formed state with positive `m`, a whole sequence of
operations executes without an exception. -/
lemma runBF_no_error : ∀ (ops : List FilterOp) (f : BloomFilter), 0 < f.m →
    (f.bit_array.length : ℤ) = f.m → f.n ≠ 0 → (runBF f ops).2 = none := by
  intro ops
  induction ops with
  | nil => exact fun f _ _ _ => rfl
  | cons op ops ih =>
    intro f hm hlen hn
    have hne := execBF_no_error f op hm hlen hn
    have hexec := execBF_frame f op
    cases h : execBF f op with
    | mk f' err =>
      rw [h] at hne hexec
      cases err with
      | none =>
        simp only [runBF, h]
        refine ih f' ?_ ?_ ?_
        · rw [hexec.2.2.1]; exact hm
        · rw [hexec.2.2.2.2.1, hexec.2.2.1]; exact hlen
        · rw [hexec.1]; exact hn
      | some e => exact absurd hne (by simp)

/-- Splitting a run at a point where no exception has yet occurred. -/
lemma runBF_append : ∀ (a b : List FilterOp) (f : BloomFilter),
    (runBF f a).2 = none → runBF f (a ++ b) = runBF (runBF f a).1 b := by
  intro a
  induction a with
  | nil => exact fun b f _ => rfl
  | cons op a ih =>
    intro b f hnone
    cases h : execBF f op with
    | mk f' err =>
      cases err with
      | none =>
        rw [List.cons_append]
        simp only [runBF, h]
        simp only [runBF, h] at hnone
        exact ih b f' hnone
      | some e =>
        simp only [runBF, h] at hnone
        exact absurd hnone (by simp)

lemma runBF_cons_of_none {f : BloomFilter} {op : FilterOp} {ops : List FilterOp}
    (h : (execBF f op).2 = none) :
    runBF f (op :: ops) = runBF (execBF f op).1 ops := by
  cases hh : execBF f op with
  | mk f' err =>
    cases err with
    | none => simp only [runBF, hh]
    | some e =>
      rw [hh] at h
      exact absurd h (by simp)

/-! ### The claims -/

/-- C1: no false negatives.  For every capacity `≥ 1` and false-positive
target in `(0,1)`, construction succeeds, and for every item `x` and every
surrounding sequence of operations, once `add x` has run, `contains x`
answers `True` in the resulting state and every later state. -/
theorem C1_no_false_negatives (n : ℤ) (p : ℝ) (hn : 1 ≤ n) (h0 : 0 < p) (h1 : p < 1) :
    ∃ f, initBF n p = .ok f ∧
      ∀ (x : PyItem) (ops1 ops2 : List FilterOp),
        containsBF (runBF f (ops1 ++ FilterOp.add x :: ops2)).1 x = .ok true := by
  obtain ⟨f, hinit, hfn, hfp, hfm, hfk, hba, hnum, hm0, hk0, hmk, hlen, hn0⟩ :=
    initBF_valid hn h0 h1
  refine ⟨f, hinit, ?_⟩
  intro x ops1 ops2
  rcases lt_or_le 0 f.m with hm | hm
  · -- positive m: nothing raises, the add marks its bits, later operations keep them
    have hr1 := runBF_no_error ops1 f hm hlen hn0
    have hsplit := runBF_append ops1 (FilterOp.add x :: ops2) f hr1
    have hfr1 := runBF_frame ops1 f
    have hm1 : 0 < (runBF f ops1).1.m := by rw [hfr1.2.2.1]; exact hm
    have hlen1 : (((runBF f ops1).1.bit_array.length : ℤ)) = (runBF f ops1).1.m := by
      rw [hfr1.2.2.2.2.1, hfr1.2.2.1]
      exact hlen
    have hn1 : (runBF f ops1).1.n ≠ 0 := by rw [hfr1.1]; exact hn0
    have hloop := addLoop_spec (runBF f ops1).1 x hm1
      (List.range (runBF f ops1).1.k.toNat) (runBF f ops1).1.bit_array hlen1
    have haddok := addBF_ok (runBF f ops1).1 x (fun hz => absurd hz hm1.ne') hlen1
    have hexecnone : (execBF (runBF f ops1).1 (FilterOp.add x)).2 = none := haddok.1
    have hstep := @runBF_cons_of_none _ _ ops2 hexecnone
    have hfields := addBF_fields (runBF f ops1).1 x
    have hm2 : 0 < (addBF (runBF f ops1).1 x).1.m := by
      rw [hfields.2.2.1]
      exact hm1
    have hmarks : ∀ i ∈ List.range (runBF f ops1).1.k.toNat,
        (addBF (runBF f ops1).1 x).1.bit_array.getD
          (hashIdx (runBF f ops1).1.m x i).toNat false = true := by
      intro i hi
      rw [hfields.2.2.2.2]
      exact hloop.2 i hi
    have hfr2 := runBF_frame ops2 (addBF (runBF f ops1).1 x).1
    have hm3 : 0 < (runBF (addBF (runBF f ops1).1 x).1 ops2).1.m := by
      rw [hfr2.2.2.1]
      exact hm2
    have hlen3 : (((runBF (addBF (runBF f ops1).1 x).1 ops2).1.bit_array.length : ℤ)) =
        (runBF (addBF (runBF f ops1).1 x).1 ops2).1.m := by
      rw [hfr2.2.2.2.2.1, hfr2.2.2.1, hfields.2.2.2.2, hfields.2.2.1]
      rw [(addLoop_len_mono (runBF f ops1).1 x (List.range (runBF f ops1).1.k.toNat)
        (runBF f ops1).1.bit_array).1]
      exact hlen1
    have hmfinal : (runBF (addBF (runBF f ops1).1 x).1 ops2).1.m = (runBF f ops1).1.m := by
      rw [hfr2.2.2.1, hfields.2.2.1]
    have hkfinal : (runBF (addBF (runBF f ops1).1 x).1 ops2).1.k = (runBF f ops1).1.k := by
      rw [hfr2.2.2.2.1, hfields.2.2.2.1]
    have hfinal : containsBF (runBF (addBF (runBF f ops1).1 x).1 ops2).1 x = .ok true := by
      rw [containsBF]
      apply containsLoop_true _ x hm3 hlen3
      intro i hi
      rw [hkfinal] at hi
      rw [hmfinal]
      exact hfr2.2.2.2.2.2 _ (hmarks i hi)
    rw [hsplit, hstep]
    exact hfinal
  · -- m = 0 forces k = 0, and then `contains` trivially answers `True`
    have hmz : f.m = 0 := le_antisymm hm hm0
    have hkz : f.k = 0 := hmk hmz
    have hfr := runBF_frame (ops1 ++ FilterOp.add x :: ops2) f
    apply containsBF_of_k_nonpos
    rw [hfr.2.2.2.1, hkz]

/-- C1 witness: the guarantee instantiated at capacity 1, target 1/2. -/
theorem C1_no_false_negatives_witness :
    ∃ f, initBF 1 (1 / 2) = .ok f ∧
      ∀ (x : PyItem) (ops1 ops2 : List FilterOp),
        containsBF (runBF f (ops1 ++ FilterOp.add x :: ops2)).1 x = .ok true :=
  C1_no_false_negatives 1 (1 / 2) (le_refl 1) (by norm_num) (by norm_num)

/-- C2 counterexample: constructing with `falsePositiveTarget = 1` (and
capacity 1) does not fail at all — it succeeds, returning a filter with
`m = 0`, `k = 0` — so the claimed `InvalidConfiguration` failure for
`falsePositiveTarget >= 1` is false (no such error exists in the code). -/
theorem C2_invalid_config_counterexample :
    initBF 1 1 = .ok ⟨1, 1, 0, 0, [], 0⟩ := by
  rw [initBF_ok (by norm_num) (by norm_num), calcM_1_1, calcK_zero]
  rfl

/-- C2 (amended): the code performs no validation.  `capacity = 0` fails
with `ZeroDivisionError` (not `InvalidConfiguration`), `falsePositiveTarget
= 0` fails with `ValueError`, `falsePositiveTarget = 1` succeeds, and
the boundary `capacity = 1, falsePositiveTarget = 0.5` succeeds. -/
theorem C2_invalid_config_amended :
    initBF 0 (1 / 2) = .error .zeroDivisionError ∧
    initBF 1 0 = .error .valueError ∧
    (∃ f, initBF 1 1 = .ok f) ∧
    (∃ f, initBF 1 (1 / 2) = .ok f) :=
  ⟨initBF_zero_cap (by norm_num), initBF_nonpos_p le_rfl,
    ⟨_, initBF_ok (by norm_num) (by norm_num)⟩,
    ⟨_, initBF_ok (by norm_num) (by norm_num)⟩⟩

/-- C3 counterexample: the valid configuration `capacity = 100,
falsePositiveTarget = 0.5` constructs a filter whose derived hash-round
count is `k = 0`, refuting `k ≥ 1`. -/
theorem C3_parameter_bounds_counterexample :
    initBF 100 (1 / 2) = .ok ⟨100, 1 / 2, 144, 0, List.replicate 144 false, 0⟩ ∧
    ¬ ((1 : ℤ) ≤ (0 : ℤ)) := by
  constructor
  · rw [initBF_ok (by norm_num) (by norm_num), calcM_100_half, calcK_100_144]
    rfl
  · norm_num

/-- C3 (amended): for every valid configuration construction succeeds and
the derived parameters satisfy `m ≥ 0` and `k ≥ 0`; `m ≥ 1` and `k ≥ 1`
do not hold in general. -/
theorem C3_parameter_bounds_amended (n : ℤ) (p : ℝ) (hn : 1 ≤ n) (h0 : 0 < p) (h1 : p < 1) :
    ∃ f, initBF n p = .ok f ∧ 0 ≤ f.m ∧ 0 ≤ f.k := by
  obtain ⟨f, hinit, _, _, _, _, _, _, hm0, hk0, _, _, _⟩ := initBF_valid hn h0 h1
  exact ⟨f, hinit, hm0, hk0⟩

/-- C3 witness: the amended bounds at capacity 3, target 1/3. -/
theorem C3_parameter_bounds_witness :
    ∃ f, initBF 3 (1 / 3) = .ok f ∧ 0 ≤ f.m ∧ 0 ≤ f.k :=
  C3_parameter_bounds_amended 3 (1 / 3) (by norm_num) (by norm_num) (by norm_num)

/-- C4 counterexample: at `capacity = 1, falsePositiveTarget = 0.5` the
code derives `m = 1` and `k = 0`, while the spec's formulas give
`ceil = 2` and `max 1 (floor) = 1`: the code neither rounds `m` up nor
floors `k` at 1. -/
theorem C4_formulas_counterexample :
    initBF 1 (1 / 2) = .ok ⟨1, 1 / 2, 1, 0, [false], 0⟩ ∧
    specCeilM 1 (1 / 2) = 2 ∧ specFloorK 1 1 = 1 := by
  refine ⟨?_, specCeilM_1_half, specFloorK_1_1⟩
  rw [initBF_ok (by norm_num) (by norm_num), calcM_1_half, calcK_1_1]
  rfl

/-- C4 (amended): for every valid configuration the code computes
`m = floor(-capacity * ln(p) / ln(2)^2)` (truncation toward zero, which
equals floor here and guarantees only `m ≥ 0`), and
`k = floor((m / capacity) * ln(2))` with no floor of 1. -/
theorem C4_formulas_amended (n : ℤ) (p : ℝ) (hn : 1 ≤ n) (h0 : 0 < p) (h1 : p < 1) :
    ∃ f, initBF n p = .ok f ∧
      f.m = ⌊-(n : ℝ) * Real.log p / Real.log 2 ^ 2⌋ ∧
      f.k = ⌊(f.m : ℝ) / (n : ℝ) * Real.log 2⌋ := by
  obtain ⟨f, hinit, _, _, hfm, hfk, _, _, hm0, _, _, _, _⟩ := initBF_valid hn h0 h1
  have hlog := Real.log_neg h0 h1
  have hn' : (1 : ℝ) ≤ (n : ℝ) := by exact_mod_cast hn
  have hraw : 0 ≤ -(n : ℝ) * Real.log p / Real.log 2 ^ 2 := by
    apply div_nonneg _ log2_sq_pos.le
    nlinarith
  have hm' : (0 : ℝ) ≤ (f.m : ℝ) := by exact_mod_cast hm0
  have hraw2 : 0 ≤ (f.m : ℝ) / (n : ℝ) * Real.log 2 := by
    apply mul_nonneg _ log2_pos.le
    apply div_nonneg hm'
    linarith
  refine ⟨f, hinit, ?_, ?_⟩
  · rw [hfm, calcM, pyInt_of_nonneg hraw]
  · rw [hfk, ← hfm, calcK, pyInt_of_nonneg hraw2]

/-- C4 witness: the amended formulas at capacity 5, target 1/2. -/
theorem C4_formulas_witness :
    ∃ f, initBF 5 (1 / 2) = .ok f ∧
      f.m = ⌊-((5 : ℤ) : ℝ) * Real.log (1 / 2) / Real.log 2 ^ 2⌋ ∧
      f.k = ⌊(f.m : ℝ) / ((5 : ℤ) : ℝ) * Real.log 2⌋ :=
  C4_formulas_amended 5 (1 / 2) (by norm_num) (by norm_num) (by norm_num)

/-- C5 (amended): `capacity = 100, falsePositiveTarget = 0.01` yields
`m = 958` (the raw value 958.505... is truncated, not rounded up) and
`k = 6`. -/
theorem C5_sizing_example_amended :
    initBF 100 (1 / 100) = .ok ⟨100, 1 / 100, 958, 6, List.replicate 958 false, 0⟩ := by
  rw [initBF_ok (by norm_num) (by norm_num), calcM_100_hundredth, calcK_100_958]
  rfl

/-- C5 counterexample: the construction at `capacity = 100,
falsePositiveTarget = 0.01` does not produce the claimed `m = 959`. -/
theorem C5_sizing_example_counterexample :
    initBF 100 (1 / 100) ≠ .ok ⟨100, 1 / 100, 959, 6, List.replicate 959 false, 0⟩ := by
  rw [initBF_ok (by norm_num) (by norm_num), calcM_100_hundredth, calcK_100_958]
  intro h
  simp only [Except.ok.injEq, BloomFilter.mk.injEq] at h
  exact absurd h.2.2.1 (by norm_num)

/-- C6 counterexample: the valid configuration `capacity = 1,
falsePositiveTarget = 0.99` derives `m = 0`, and on that fresh filter
`get_fill_ratio` raises `ZeroDivisionError` instead of returning 0. -/
theorem C6_empty_filter_counterexample :
    initBF 1 (99 / 100) = .ok ⟨1, 99 / 100, 0, 0, [], 0⟩ ∧
    getFillBF ⟨1, 99 / 100, 0, 0, [], 0⟩ = .error .zeroDivisionError := by
  constructor
  · rw [initBF_ok (by norm_num) (by norm_num), calcM_1_99_100, calcK_zero]
    rfl
  · exact getFillBF_zero_m rfl

/-- C6 (amended): a freshly constructed filter reports a current
false-positive estimate of 0; the fill ratio is 0 whenever the derived
`m` is nonzero, but raises `ZeroDivisionError` when `m = 0`. -/
theorem C6_empty_filter_amended (n : ℤ) (p : ℝ) (hn : 1 ≤ n) (h0 : 0 < p) (h1 : p < 1) :
    ∃ f, initBF n p = .ok f ∧ getFpBF f = .ok 0 ∧
      (f.m ≠ 0 → getFillBF f = .ok 0) ∧
      (f.m = 0 → getFillBF f = .error .zeroDivisionError) := by
  obtain ⟨f, hinit, _, _, _, _, hba, hnum, _, _, _, _, _⟩ := initBF_valid hn h0 h1
  refine ⟨f, hinit, getFpBF_empty hnum, ?_, fun hz => getFillBF_zero_m hz⟩
  intro hm
  rw [getFillBF_ok hm]
  have hcount : (List.replicate f.m.toNat false).count true = 0 := by
    simp [List.count_replicate]
  rw [hba, hcount]
  norm_num

/-- C6 witness: the amended statement at capacity 2, target 1/2. -/
theorem C6_empty_filter_witness :
    ∃ f, initBF 2 (1 / 2) = .ok f ∧ getFpBF f = .ok 0 ∧
      (f.m ≠ 0 → getFillBF f = .ok 0) ∧
      (f.m = 0 → getFillBF f = .error .zeroDivisionError) :=
  C6_empty_filter_amended 2 (1 / 2) (by norm_num) (by norm_num) (by norm_num)

lemma runBF_append_stop : ∀ (a b : List FilterOp) (f : BloomFilter) (e : PyErr),
    (runBF f a).2 = some e → runBF f (a ++ b) = runBF f a := by
  intro a
  induction a with
  | nil =>
    intro b f e h
    exact absurd h (by simp [runBF])
  | cons op a ih =>
    intro b f e h
    cases hh : execBF f op with
    | mk f' err =>
      cases err with
      | none =>
        rw [List.cons_append]
        simp only [runBF, hh]
        simp only [runBF, hh] at h
        exact ih b f' e h
      | some e' =>
        rw [List.cons_append]
        simp only [runBF, hh]

/-- C7: across any sequence of operations on a filter built from a valid
configuration, the bit array keeps length exactly `m`, `m` itself never
changes, and set bits are never cleared (the set of true bits only
grows). -/
theorem C7_bit_array_invariants (n : ℤ) (p : ℝ) (hn : 1 ≤ n) (h0 : 0 < p) (h1 : p < 1) :
    ∃ f, initBF n p = .ok f ∧
      (∀ ops : List FilterOp,
        ((runBF f ops).1.bit_array.length : ℤ) = f.m ∧ (runBF f ops).1.m = f.m) ∧
      (∀ (ops extra : List FilterOp) (j : ℕ),
        (runBF f ops).1.bit_array.getD j false = true →
        (runBF f (ops ++ extra)).1.bit_array.getD j false = true) := by
  obtain ⟨f, hinit, _, _, _, _, _, _, _, _, _, hlen, _⟩ := initBF_valid hn h0 h1
  refine ⟨f, hinit, ?_, ?_⟩
  · intro ops
    have hfr := runBF_frame ops f
    constructor
    · rw [hfr.2.2.2.2.1]
      exact hlen
    · exact hfr.2.2.1
  · intro ops extra j hj
    cases herr : (runBF f ops).2 with
    | none =>
      rw [runBF_append ops extra f herr]
      exact (runBF_frame extra (runBF f ops).1).2.2.2.2.2 j hj
    | some e =>
      rw [runBF_append_stop ops extra f e herr]
      exact hj

/-- C7 witness: the invariants at capacity 7, target 1/2. -/
theorem C7_bit_array_invariants_witness :
    ∃ f, initBF 7 (1 / 2) = .ok f ∧
      (∀ ops : List FilterOp,
        ((runBF f ops).1.bit_array.length : ℤ) = f.m ∧ (runBF f ops).1.m = f.m) ∧
      (∀ (ops extra : List FilterOp) (j : ℕ),
        (runBF f ops).1.bit_array.getD j false = true →
        (runBF f (ops ++ extra)).1.bit_array.getD j false = true) :=
  C7_bit_array_invariants 7 (1 / 2) (by norm_num) (by norm_num) (by norm_num)

/-- C8: on any state reachable from a valid construction, `add` completes
without an exception for every item and increments `num_elements` by
exactly one; the query operations leave `num_elements` unchanged. -/
theorem C8_element_counter (n : ℤ) (p : ℝ) (hn : 1 ≤ n) (h0 : 0 < p) (h1 : p < 1) :
    ∃ f, initBF n p = .ok f ∧
      ∀ (ops : List FilterOp) (x : PyItem),
        (addBF (runBF f ops).1 x).2 = none ∧
        (addBF (runBF f ops).1 x).1.num_elements = (runBF f ops).1.num_elements + 1 ∧
        (∀ y, (execBF (runBF f ops).1 (FilterOp.contains y)).1.num_elements
            = (runBF f ops).1.num_elements) ∧
        (execBF (runBF f ops).1 FilterOp.fill).1.num_elements
            = (runBF f ops).1.num_elements ∧
        (execBF (runBF f ops).1 FilterOp.fpEstimate).1.num_elements
            = (runBF f ops).1.num_elements ∧
        (execBF (runBF f ops).1 FilterOp.stats).1.num_elements
            = (runBF f ops).1.num_elements := by
  obtain ⟨f, hinit, _, _, _, _, _, _, _, _, hmk, hlen, _⟩ := initBF_valid hn h0 h1
  refine ⟨f, hinit, ?_⟩
  intro ops x
  have hfr := runBF_frame ops f
  have hwf : (runBF f ops).1.m = 0 → (runBF f ops).1.k ≤ 0 := by
    rw [hfr.2.2.1, hfr.2.2.2.1]
    intro hz
    exact le_of_eq (hmk hz)
  have hlen' : (((runBF f ops).1.bit_array.length : ℤ)) = (runBF f ops).1.m := by
    rw [hfr.2.2.2.2.1, hfr.2.2.1]
    exact hlen
  have hadd := addBF_ok (runBF f ops).1 x hwf hlen'
  refine ⟨hadd.1, hadd.2, ?_, ?_, ?_, ?_⟩
  · intro y
    rw [execBF_query_eq _ _ (fun item h => by cases h)]
  · rw [execBF_query_eq _ _ (fun item h => by cases h)]
  · rw [execBF_query_eq _ _ (fun item h => by cases h)]
  · rw [execBF_query_eq _ _ (fun item h => by cases h)]

/-- C8 witness: the counter behaviour at capacity 11, target 1/2. -/
theorem C8_element_counter_witness :
    ∃ f, initBF 11 (1 / 2) = .ok f ∧
      ∀ (ops : List FilterOp) (x : PyItem),
        (addBF (runBF f ops).1 x).2 = none ∧
        (addBF (runBF f ops).1 x).1.num_elements = (runBF f ops).1.num_elements + 1 ∧
        (∀ y, (execBF (runBF f ops).1 (FilterOp.contains y)).1.num_elements
            = (runBF f ops).1.num_elements) ∧
        (execBF (runBF f ops).1 FilterOp.fill).1.num_elements
            = (runBF f ops).1.num_elements ∧
        (execBF (runBF f ops).1 FilterOp.fpEstimate).1.num_elements
            = (runBF f ops).1.num_elements ∧
        (execBF (runBF f ops).1 FilterOp.stats).1.num_elements
            = (runBF f ops).1.num_elements :=
  C8_element_counter 11 (1 / 2) (by norm_num) (by norm_num) (by norm_num)

/-- C9: `contains`, `get_fill_ratio`, `get_current_false_positive_probability`
and `print_stats` leave the filter state exactly as it was, and no
operation (including `add`) ever changes `n`, `p`, `m` or `k`. -/
theorem C9_frame_conditions (f : BloomFilter) (ops : List FilterOp) :
    (∀ y, (execBF f (FilterOp.contains y)).1 = f) ∧
    (execBF f FilterOp.fill).1 = f ∧
    (execBF f FilterOp.fpEstimate).1 = f ∧
    (execBF f FilterOp.stats).1 = f ∧
    (runBF f ops).1.n = f.n ∧ (runBF f ops).1.p = f.p ∧
    (runBF f ops).1.m = f.m ∧ (runBF f ops).1.k = f.k := by
  have hfr := runBF_frame ops f
  exact ⟨fun y => execBF_query_eq f _ (fun item h => by cases h),
    execBF_query_eq f _ (fun item h => by cases h),
    execBF_query_eq f _ (fun item h => by cases h),
    execBF_query_eq f _ (fun item h => by cases h),
    hfr.1, hfr.2.1, hfr.2.2.1, hfr.2.2.2.1⟩

lemma addLoop_int_str (f : BloomFilter) (i : ℤ) :
    ∀ (seeds : List ℕ) (bits : List Bool),
      addLoop f (.int i) bits seeds = addLoop f (.str (toString i)) bits seeds := by
  intro seeds
  induction seeds with
  | nil => exact fun bits => rfl
  | cons s rest ih =>
    intro bits
    cases hh : hashBF f (PyItem.str (toString i)) s with
    | error e =>
      have hh' : hashBF f (PyItem.int i) s = .error e := hh
      simp only [addLoop, hh, hh']
    | ok idx =>
      have hh' : hashBF f (PyItem.int i) s = .ok idx := hh
      cases hs : pySetBit bits idx with
      | error e => simp only [addLoop, hh, hh', hs]
      | ok bits' =>
        simp only [addLoop, hh, hh', hs]
        exact ih bits'

lemma containsLoop_int_str (f : BloomFilter) (i : ℤ) :
    ∀ seeds : List ℕ,
      containsLoop f (.int i) seeds = containsLoop f (.str (toString i)) seeds := by
  intro seeds
  induction seeds with
  | nil => rfl
  | cons s rest ih =>
    cases hh : hashBF f (PyItem.str (toString i)) s with
    | error e =>
      have hh' : hashBF f (PyItem.int i) s = .error e := hh
      simp only [containsLoop, hh, hh', bind, Except.bind]
    | ok idx =>
      have hh' : hashBF f (PyItem.int i) s = .ok idx := hh
      cases hg : pyGetBit f.bit_array idx with
      | error e => simp only [containsLoop, hh, hh', hg, bind, Except.bind]
      | ok b =>
        simp only [containsLoop, hh, hh', hg, bind, Except.bind]
        cases b
        · rfl
        · exact ih

/-- C10: an integer argument and its decimal string are indistinguishable:
`add` and `contains` treat `i` and `str(i)` identically (both `isinstance`
branches of `_hash` call `str`), and the `in` operator (`__contains__`)
coincides with `contains` on every item. -/
theorem C10_int_str_equivalence (f : BloomFilter) (i : ℤ) (x : PyItem) :
    addBF f (.int i) = addBF f (.str (toString i)) ∧
    containsBF f (.int i) = containsBF f (.str (toString i)) ∧
    memBF f x = containsBF f x := by
  refine ⟨?_, ?_, rfl⟩
  · rw [addBF, addBF, addLoop_int_str]
  · rw [containsBF, containsBF, containsLoop_int_str]
